import Mathlib

/-!
Shallow embedding of src/ai_translator.py (Cleanstation/ai-translator).

The embedding models the pure core of the module:
  - the output formatter Translator._format_output (here format_output),
  - the cache key construction TranslationCache._make_key (here make_key) and the
    in-memory cache dictionary operations get / set / set_batch (dlookup, dinsert,
    cache_get, cache_set, cache_set_batch),
  - the prompt builder Translator._build_prompt (here build_prompt),
  - the batching engine Translator.batch_translate (here batch_translate).

Modelling choices, each noted at the definition it concerns:
  - Python dicts are association lists with Python insertion-order semantics
    (update in place, append new keys at the end).
  - Python str is Lean String; the character class of the regular expression
    patterns used by the source (backslash-s, quotes, underscore, hyphen) is
    modelled over the ASCII range, and str.lower / str.capitalize over the
    ASCII letters, which covers every character class decision the source makes
    on its identifier outputs.
  - The built-in Python hash is unspecified and per-process randomised, so it is
    a parameter (pyHash : String → Int) of every cache operation; the source
    reduces it modulo 10000, which Int.emod matches for the positive modulus.
  - The external oracle subprocess (subprocess.run of the claude CLI, the regex
    extraction of the first brace-delimited object and json.loads) is modelled
    as an injected function from the prompt to an OracleReply: one constructor
    per failure branch of the source try-block and one success constructor
    carrying the decoded flat object in key order.
  - File persistence (TranslationCache._load / _save) and context discovery
    (Translator._load_context) are I/O collaborators outside the embedded state;
    the cache state is the in-memory dictionary TranslationCache._data.
-/

/-- Python whitespace test, restricted to the six ASCII whitespace characters
(space, tab, line feed, vertical tab, form feed, carriage return); this is the
set the regex class backslash-s matches on the ASCII range, and the set used by
str.strip. -/
def isPySpace (c : Char) : Bool :=
  c.toNat == 32 || c.toNat == 9 || c.toNat == 10 || c.toNat == 13 || c.toNat == 11 || c.toNat == 12

/-- The quote characters removed by the substitution of the pattern
double-quote-or-single-quote in _format_output (code points 34 and 39). -/
def isQuote (c : Char) : Bool :=
  c.toNat == 34 || c.toNat == 39

/-- ASCII lowercasing of one character, the character-level action of Python
str.lower on the inputs in scope. -/
def lowerChar (c : Char) : Char :=
  if 65 ≤ c.toNat ∧ c.toNat ≤ 90 then Char.ofNat (c.toNat + 32) else c

/-- ASCII uppercasing of one character, the character-level action of Python
str.upper on the inputs in scope. -/
def upperChar (c : Char) : Char :=
  if 97 ≤ c.toNat ∧ c.toNat ≤ 122 then Char.ofNat (c.toNat - 32) else c

theorem toNat_ofNat_small (n : Nat) (h : n < 55296) : (Char.ofNat n).toNat = n := by
  have hv : n.isValidChar := Or.inl h
  simp [Char.ofNat, hv, Char.ofNatAux, Char.toNat, UInt32.toNat, UInt32.ofNatCore]

theorem char_toNat_inj {a b : Char} (h : a.toNat = b.toNat) : a = b :=
  Char.eq_of_val_eq (UInt32.toNat.inj h)

theorem lowerChar_spec (c : Char) :
    (65 ≤ c.toNat ∧ c.toNat ≤ 90 ∧ (lowerChar c).toNat = c.toNat + 32) ∨
    (¬(65 ≤ c.toNat ∧ c.toNat ≤ 90) ∧ lowerChar c = c) := by
  by_cases h : 65 ≤ c.toNat ∧ c.toNat ≤ 90
  · left
    refine ⟨h.1, h.2, ?_⟩
    rw [lowerChar, if_pos h, toNat_ofNat_small _ (by omega)]
  · right
    exact ⟨h, by rw [lowerChar, if_neg h]⟩

theorem upperChar_spec (c : Char) :
    (97 ≤ c.toNat ∧ c.toNat ≤ 122 ∧ (upperChar c).toNat = c.toNat - 32) ∨
    (¬(97 ≤ c.toNat ∧ c.toNat ≤ 122) ∧ upperChar c = c) := by
  by_cases h : 97 ≤ c.toNat ∧ c.toNat ≤ 122
  · left
    refine ⟨h.1, h.2, ?_⟩
    rw [upperChar, if_pos h, toNat_ofNat_small _ (by omega)]
  · right
    exact ⟨h, by rw [upperChar, if_neg h]⟩

theorem lowerChar_lowerChar (c : Char) : lowerChar (lowerChar c) = lowerChar c := by
  rcases lowerChar_spec c with ⟨h1, h2, h3⟩ | ⟨h, he⟩
  · rcases lowerChar_spec (lowerChar c) with ⟨g1, g2, _⟩ | ⟨_, ge⟩
    · omega
    · exact ge
  · simp only [he]

theorem lowerChar_upperChar_fixed (c : Char) (h : lowerChar c = c) :
    lowerChar (upperChar c) = c := by
  rcases upperChar_spec c with ⟨h1, h2, h3⟩ | ⟨_, he⟩
  · rcases lowerChar_spec (upperChar c) with ⟨g1, g2, g3⟩ | ⟨g, ge⟩
    · exact char_toNat_inj (by omega)
    · exfalso
      exact g ⟨by omega, by omega⟩
  · rw [he, h]

theorem isPySpace_false_of_bounds (u : Char) (h1 : 65 ≤ u.toNat) (h2 : u.toNat ≤ 90) :
    isPySpace u = false := by
  simp only [isPySpace, Bool.or_eq_false_iff, beq_eq_false_iff_ne]
  omega

theorem isPySpace_upperChar (c : Char) (h : isPySpace c = false) :
    isPySpace (upperChar c) = false := by
  rcases upperChar_spec c with ⟨h1, h2, h3⟩ | ⟨_, he⟩
  · exact isPySpace_false_of_bounds _ (by omega) (by omega)
  · rw [he]
    exact h

/-- Removal of leading and trailing whitespace, the action of Python str.strip
in _format_output. -/
def pyStrip (l : List Char) : List Char :=
  ((l.dropWhile isPySpace).reverse.dropWhile isPySpace).reverse

/-- Replacement of every maximal run of characters satisfying p by the fixed
replacement list rep: the action of re.sub with a character-class-plus pattern.
The Bool argument records whether the previous character was inside a run. -/
def subRunsAux (p : Char → Bool) (rep : List Char) : Bool → List Char → List Char
  | _, [] => []
  | b, c :: cs =>
    if p c then
      if b then subRunsAux p rep true cs
      else rep ++ subRunsAux p rep true cs
    else c :: subRunsAux p rep false cs

/-- re.sub of a character-class-plus pattern with a fixed replacement. -/
def subRuns (p : Char → Bool) (rep : List Char) (l : List Char) : List Char :=
  subRunsAux p rep false l

/-- Splitting at every maximal run of characters satisfying p: the action of
re.split with a character-class-plus pattern, producing empty pieces at the two
ends exactly as Python does. -/
def splitAux (p : Char → Bool) : Bool → List Char → List (List Char)
  | _, [] => [[]]
  | b, c :: cs =>
    if p c then
      if b then splitAux p true cs
      else [] :: splitAux p true cs
    else
      match splitAux p false cs with
      | [] => [[c]]
      | t :: ts => (c :: t) :: ts

/-- re.split of a character-class-plus pattern. -/
def splitRuns (p : Char → Bool) (l : List Char) : List (List Char) :=
  splitAux p false l

/-- Python str.capitalize on an already-processed word: first character
uppercased, the rest lowercased. -/
def pyCapitalize (l : List Char) : List Char :=
  match l with
  | [] => []
  | c :: cs => upperChar c :: cs.map lowerChar

/-- The separator class of the kebab-case branch: whitespace or underscore. -/
def sepKebab (c : Char) : Bool := isPySpace c || c.toNat == 95

/-- The separator class of the snake_case and UPPERCASE branches: whitespace or
hyphen. -/
def sepSnake (c : Char) : Bool := isPySpace c || c.toNat == 45

/-- The separator class of the camelCase, PascalCase and lowercase branches:
whitespace, underscore or hyphen. -/
def sepAll (c : Char) : Bool := isPySpace c || c.toNat == 95 || c.toNat == 45

/-- The cleaning prefix of Translator._format_output: strip surrounding
whitespace, lowercase, delete quote characters, collapse whitespace runs to a
single space. -/
def cleanText (l : List Char) : List Char :=
  subRunsAux isPySpace [' '] false (((pyStrip l).map lowerChar).filter (fun c => !(isQuote c)))

/-- Translator._format_output: clean the text, then apply the convention
selected by the output format string; an unrecognized format falls back to the
cleaned text. -/
def format_output (fmt : String) (text : String) : String :=
  if fmt = "kebab-case" then ⟨subRuns sepKebab ['-'] (cleanText text.data)⟩
  else if fmt = "snake_case" then ⟨subRuns sepSnake ['_'] (cleanText text.data)⟩
  else if fmt = "camelCase" then
    match splitRuns sepAll (cleanText text.data) with
    | [] => ⟨[]⟩
    | w :: ws => ⟨w ++ (ws.map pyCapitalize).flatten⟩
  else if fmt = "PascalCase" then ⟨((splitRuns sepAll (cleanText text.data)).map pyCapitalize).flatten⟩
  else if fmt = "lowercase" then ⟨subRuns sepAll [] (cleanText text.data)⟩
  else if fmt = "UPPERCASE" then ⟨(subRuns sepSnake ['_'] (cleanText text.data)).map upperChar⟩
  else ⟨cleanText text.data⟩

theorem mem_subRunsAux (p : Char → Bool) (rep : List Char) (c : Char) :
    ∀ (l : List Char) (b : Bool), c ∈ subRunsAux p rep b l → c ∈ rep ∨ (c ∈ l ∧ p c = false) := by
  intro l
  induction l with
  | nil =>
    intro b h
    simp [subRunsAux] at h
  | cons x xs ih =>
    intro b h
    unfold subRunsAux at h
    by_cases hp : p x
    · rw [if_pos hp] at h
      cases b with
      | true =>
        rcases ih true h with h1 | ⟨h2, h3⟩
        · exact Or.inl h1
        · exact Or.inr ⟨List.mem_cons_of_mem _ h2, h3⟩
      | false =>
        rcases List.mem_append.mp h with h1 | h2
        · exact Or.inl h1
        · rcases ih true h2 with h3 | ⟨h4, h5⟩
          · exact Or.inl h3
          · exact Or.inr ⟨List.mem_cons_of_mem _ h4, h5⟩
    · rw [if_neg hp] at h
      rcases List.mem_cons.mp h with rfl | h2
      · exact Or.inr ⟨List.mem_cons_self _ _, Bool.not_eq_true _ ▸ (eq_false_of_ne_true hp)⟩
      · rcases ih false h2 with h3 | ⟨h4, h5⟩
        · exact Or.inl h3
        · exact Or.inr ⟨List.mem_cons_of_mem _ h4, h5⟩

theorem subRunsAux_eq_self (p : Char → Bool) (rep : List Char) (l : List Char)
    (h : ∀ c ∈ l, p c = false) : ∀ b, subRunsAux p rep b l = l := by
  induction l with
  | nil =>
    intro b
    rfl
  | cons x xs ih =>
    intro b
    have hx : p x = false := h x (List.mem_cons_self _ _)
    unfold subRunsAux
    rw [if_neg (by simp [hx])]
    rw [ih (fun c hc => h c (List.mem_cons_of_mem _ hc)) false]

theorem dropWhile_eq_self_of (p : Char → Bool) (l : List Char)
    (h : ∀ c ∈ l, p c = false) : l.dropWhile p = l := by
  cases l with
  | nil => rfl
  | cons x xs => simp [List.dropWhile, h x (List.mem_cons_self _ _)]

theorem pyStrip_eq_self (l : List Char) (h : ∀ c ∈ l, isPySpace c = false) :
    pyStrip l = l := by
  unfold pyStrip
  rw [dropWhile_eq_self_of _ _ h,
    dropWhile_eq_self_of _ _ (fun c hc => h c (List.mem_reverse.mp hc)),
    List.reverse_reverse]

theorem mapEqSelf (f : Char → Char) (l : List Char) (h : ∀ c ∈ l, f c = c) :
    l.map f = l := by
  induction l with
  | nil => rfl
  | cons x xs ih =>
    simp only [List.map_cons, h x (List.mem_cons_self _ _)]
    rw [ih (fun c hc => h c (List.mem_cons_of_mem _ hc))]

theorem cleanText_eq_self (out : List Char)
    (h : ∀ c ∈ out, isPySpace c = false ∧ lowerChar c = c ∧ isQuote c = false) :
    cleanText out = out := by
  unfold cleanText
  rw [pyStrip_eq_self out (fun c hc => (h c hc).1),
    mapEqSelf lowerChar out (fun c hc => (h c hc).2.1),
    List.filter_eq_self.mpr (fun c hc => by simp [(h c hc).2.2]),
    subRunsAux_eq_self _ _ out (fun c hc => (h c hc).1) false]

theorem mem_cleanText (l : List Char) (c : Char) (hc : c ∈ cleanText l) :
    c = ' ' ∨ (lowerChar c = c ∧ isQuote c = false) := by
  unfold cleanText at hc
  rcases mem_subRunsAux _ _ _ _ _ hc with h1 | ⟨h2, _⟩
  · left
    simpa using h1
  · right
    have h3 := List.mem_filter.mp h2
    constructor
    · rcases List.mem_map.mp h3.1 with ⟨x, _, rfl⟩
      exact lowerChar_lowerChar x
    · simpa using h3.2

theorem subRuns_cleanText_chars (sep : Char → Bool) (rep : List Char) (l : List Char)
    (hsep : ∀ c, isPySpace c = true → sep c = true)
    (hrep : ∀ r ∈ rep, isPySpace r = false ∧ lowerChar r = r ∧ isQuote r = false ∧ sep r = false)
    (c : Char) (hc : c ∈ subRuns sep rep (cleanText l)) :
    isPySpace c = false ∧ lowerChar c = c ∧ isQuote c = false ∧ sep c = false := by
  rcases mem_subRunsAux _ _ _ _ _ hc with h1 | ⟨h2, h3⟩
  · exact hrep c h1
  · have hsp : isPySpace c = false := by
      cases hps : isPySpace c
      · rfl
      · rw [hsep c hps] at h3
        exact absurd h3 (by simp)
    rcases mem_cleanText _ _ h2 with rfl | ⟨hl, hq⟩
    · exact absurd hsp (by simp [isPySpace])
    · exact ⟨hsp, hl, hq, h3⟩

theorem format_output_kebab (t : String) :
    format_output "kebab-case" t = ⟨subRuns sepKebab ['-'] (cleanText t.data)⟩ := rfl

theorem format_output_snake (t : String) :
    format_output "snake_case" t = ⟨subRuns sepSnake ['_'] (cleanText t.data)⟩ := rfl

theorem format_output_lower (t : String) :
    format_output "lowercase" t = ⟨subRuns sepAll [] (cleanText t.data)⟩ := rfl

theorem format_output_upper (t : String) :
    format_output "UPPERCASE" t = ⟨(subRuns sepSnake ['_'] (cleanText t.data)).map upperChar⟩ := rfl

theorem kebab_idem (s : String) :
    format_output "kebab-case" (format_output "kebab-case" s) = format_output "kebab-case" s := by
  have hch := subRuns_cleanText_chars sepKebab ['-'] s.data
    (fun c h => by simp [sepKebab, h]) (by decide)
  rw [format_output_kebab s, format_output_kebab]
  apply congrArg String.mk
  show subRuns sepKebab ['-'] (cleanText (subRuns sepKebab ['-'] (cleanText s.data)))
      = subRuns sepKebab ['-'] (cleanText s.data)
  rw [cleanText_eq_self _ (fun c hc => ⟨(hch c hc).1, (hch c hc).2.1, (hch c hc).2.2.1⟩)]
  exact subRunsAux_eq_self _ _ _ (fun c hc => (hch c hc).2.2.2) false

theorem snake_idem (s : String) :
    format_output "snake_case" (format_output "snake_case" s) = format_output "snake_case" s := by
  have hch := subRuns_cleanText_chars sepSnake ['_'] s.data
    (fun c h => by simp [sepSnake, h]) (by decide)
  rw [format_output_snake s, format_output_snake]
  apply congrArg String.mk
  show subRuns sepSnake ['_'] (cleanText (subRuns sepSnake ['_'] (cleanText s.data)))
      = subRuns sepSnake ['_'] (cleanText s.data)
  rw [cleanText_eq_self _ (fun c hc => ⟨(hch c hc).1, (hch c hc).2.1, (hch c hc).2.2.1⟩)]
  exact subRunsAux_eq_self _ _ _ (fun c hc => (hch c hc).2.2.2) false

theorem lowercase_idem (s : String) :
    format_output "lowercase" (format_output "lowercase" s) = format_output "lowercase" s := by
  have hch := subRuns_cleanText_chars sepAll [] s.data
    (fun c h => by simp [sepAll, h]) (by decide)
  rw [format_output_lower s, format_output_lower]
  apply congrArg String.mk
  show subRuns sepAll [] (cleanText (subRuns sepAll [] (cleanText s.data)))
      = subRuns sepAll [] (cleanText s.data)
  rw [cleanText_eq_self _ (fun c hc => ⟨(hch c hc).1, (hch c hc).2.1, (hch c hc).2.2.1⟩)]
  exact subRunsAux_eq_self _ _ _ (fun c hc => (hch c hc).2.2.2) false

theorem upper_idem (s : String) :
    format_output "UPPERCASE" (format_output "UPPERCASE" s) = format_output "UPPERCASE" s := by
  have hch := subRuns_cleanText_chars sepSnake ['_'] s.data
    (fun c h => by simp [sepSnake, h]) (by decide)
  rw [format_output_upper s, format_output_upper]
  apply congrArg String.mk
  show (subRuns sepSnake ['_'] (cleanText ((subRuns sepSnake ['_'] (cleanText s.data)).map upperChar))).map upperChar
      = (subRuns sepSnake ['_'] (cleanText s.data)).map upperChar
  have hclean : cleanText ((subRuns sepSnake ['_'] (cleanText s.data)).map upperChar)
      = subRuns sepSnake ['_'] (cleanText s.data) := by
    unfold cleanText
    rw [pyStrip_eq_self _ (by
      intro c hc
      rcases List.mem_map.mp hc with ⟨x, hx, rfl⟩
      exact isPySpace_upperChar x (hch x hx).1)]
    rw [List.map_map]
    rw [mapEqSelf _ _ (fun c hc => by
      simp only [Function.comp_apply]
      exact lowerChar_upperChar_fixed c ((hch c hc).2.1))]
    rw [List.filter_eq_self.mpr (fun c hc => by simp [(hch c hc).2.2.1])]
    exact subRunsAux_eq_self _ _ _ (fun c hc => (hch c hc).1) false
  rw [hclean]
  rw [show subRuns sepSnake ['_'] (subRuns sepSnake ['_'] (cleanText s.data))
      = subRuns sepSnake ['_'] (cleanText s.data) from
    subRunsAux_eq_self _ _ _ (fun c hc => (hch c hc).2.2.2) false]

/-- A Python dict of strings, as an association list in insertion order. -/
abbrev Dict := List (String × String)

/-- Python dict lookup d.get(k): the value at the unique entry whose key is k,
or none. -/
def dlookup (d : Dict) (k : String) : Option String :=
  match d with
  | [] => none
  | (k', v) :: rest => if k' = k then some v else dlookup rest k

/-- Python dict assignment d[k] = v: update the existing entry in place, or
append a new entry at the end. -/
def dinsert (d : Dict) (k v : String) : Dict :=
  match d with
  | [] => [(k, v)]
  | (k', v') :: rest => if k' = k then (k', v) :: rest else (k', v') :: dinsert rest k v

/-- The key list of a dict, in insertion order. -/
def dkeys (d : Dict) : List String := d.map Prod.fst

theorem dlookup_dinsert_self (d : Dict) (k v : String) :
    dlookup (dinsert d k v) k = some v := by
  induction d with
  | nil => simp [dinsert, dlookup]
  | cons x rest ih =>
    obtain ⟨k', v'⟩ := x
    by_cases h : k' = k
    · simp [dinsert, dlookup, h]
    · simp only [dinsert, dlookup, if_neg h]
      exact ih

theorem dlookup_dinsert_ne (d : Dict) (k v k' : String) (h : k' ≠ k) :
    dlookup (dinsert d k v) k' = dlookup d k' := by
  have hne : ¬ k = k' := fun he => h he.symm
  induction d with
  | nil =>
    simp only [dinsert, dlookup]
    rw [if_neg hne]
  | cons x rest ih =>
    obtain ⟨k0, v0⟩ := x
    by_cases h0 : k0 = k
    · subst h0
      simp only [dinsert, if_pos rfl, dlookup]
      rw [if_neg hne, if_neg hne]
    · simp only [dinsert, if_neg h0, dlookup]
      by_cases h1 : k0 = k'
      · rw [if_pos h1, if_pos h1]
      · rw [if_neg h1, if_neg h1]
        exact ih

theorem dkeys_dinsert (d : Dict) (k v : String) :
    dkeys (dinsert d k v) = if k ∈ dkeys d then dkeys d else dkeys d ++ [k] := by
  induction d with
  | nil => simp [dinsert, dkeys]
  | cons x rest ih =>
    obtain ⟨k0, v0⟩ := x
    by_cases h0 : k0 = k
    · subst h0
      simp [dinsert, dkeys]
    · simp only [dinsert, if_neg h0, dkeys, List.map_cons] at *
      rw [ih]
      by_cases hm : k ∈ List.map Prod.fst rest
      · simp [hm, Ne.symm h0]
      · simp [hm, Ne.symm h0]

theorem mem_dkeys_dinsert (d : Dict) (k v k' : String) :
    k' ∈ dkeys (dinsert d k v) ↔ k' ∈ dkeys d ∨ k' = k := by
  rw [dkeys_dinsert]
  by_cases hm : k ∈ dkeys d
  · rw [if_pos hm]
    constructor
    · exact Or.inl
    · rintro (h | rfl)
      · exact h
      · exact hm
  · rw [if_neg hm]
    simp

theorem nodup_dkeys_dinsert (d : Dict) (k v : String) (h : (dkeys d).Nodup) :
    (dkeys (dinsert d k v)).Nodup := by
  rw [dkeys_dinsert]
  by_cases hm : k ∈ dkeys d
  · rw [if_pos hm]
    exact h
  · rw [if_neg hm]
    simpa [List.nodup_append] using ⟨h, hm⟩

theorem dlookup_eq_none_iff (d : Dict) (k : String) :
    dlookup d k = none ↔ k ∉ dkeys d := by
  induction d with
  | nil => simp [dlookup, dkeys]
  | cons x rest ih =>
    obtain ⟨k0, v0⟩ := x
    by_cases h0 : k0 = k
    · subst h0
      simp [dlookup, dkeys]
    · simp only [dlookup, if_neg h0, dkeys, List.map_cons, List.mem_cons]
      rw [ih]
      constructor
      · rintro hn (h1 | h2)
        · exact h0 h1.symm
        · exact hn h2
      · intro hn h2
        exact hn (Or.inr h2)

theorem mem_of_dlookup (d : Dict) (k v : String) (h : dlookup d k = some v) :
    (k, v) ∈ d := by
  induction d with
  | nil => simp [dlookup] at h
  | cons x rest ih =>
    obtain ⟨k0, v0⟩ := x
    by_cases h0 : k0 = k
    · subst h0
      simp [dlookup] at h
      subst h
      exact List.mem_cons_self _ _
    · simp only [dlookup, if_neg h0] at h
      exact List.mem_cons_of_mem _ (ih h)

theorem mem_dinsert (d : Dict) (k v : String) (kv : String × String)
    (h : kv ∈ dinsert d k v) : kv ∈ d ∨ kv = (k, v) := by
  induction d with
  | nil => simpa [dinsert] using h
  | cons x rest ih =>
    obtain ⟨k0, v0⟩ := x
    by_cases h0 : k0 = k
    · subst h0
      rw [dinsert, if_pos rfl] at h
      rcases List.mem_cons.mp h with rfl | h2
      · exact Or.inr rfl
      · exact Or.inl (List.mem_cons_of_mem _ h2)
    · rw [dinsert, if_neg h0] at h
      rcases List.mem_cons.mp h with rfl | h2
      · exact Or.inl (List.mem_cons_self _ _)
      · rcases ih h2 with h3 | h3
        · exact Or.inl (List.mem_cons_of_mem _ h3)
        · exact Or.inr h3

/-- TranslationCache._make_key: the composite cache key string
format-bar-contexthash-bar-text, where the context hash is the Python hash of
the context (or of the empty string when the context is absent or empty, as
Python `context or ""` gives) reduced modulo 10000. The Python hash itself is
the injected parameter pyHash. -/
def make_key (pyHash : String → Int) (context : Option String) (output_format text : String) : String :=
  output_format ++ "|" ++ toString (pyHash (context.getD "") % 10000) ++ "|" ++ text

/-- TranslationCache.get on the in-memory dictionary: a pure lookup. -/
def cache_get (pyHash : String → Int) (data : Dict) (text : String) (context : Option String)
    (output_format : String) : Option String :=
  dlookup data (make_key pyHash context output_format text)

/-- TranslationCache.set on the in-memory dictionary (the synchronous file
flush is an I/O effect outside the embedded state). -/
def cache_set (pyHash : String → Int) (data : Dict) (text : String) (context : Option String)
    (output_format translation : String) : Dict :=
  dinsert data (make_key pyHash context output_format text) translation

/-- TranslationCache.set_batch: insert every entry of the given mapping, in
iteration order, under a single flush. -/
def cache_set_batch (pyHash : String → Int) (data : Dict) (translations : Dict)
    (context : Option String) (output_format : String) : Dict :=
  translations.foldl (fun acc kv => dinsert acc (make_key pyHash context output_format kv.1) kv.2) data

/-- The embedded state of a Translator instance: its configuration fields and
the in-memory cache dictionary. -/
structure Translator where
  output_format : String
  max_length : Nat
  context : Option String
  cache : Dict

/-- The reply of one oracle invocation, at the granularity of the branches of
the try-block in batch_translate: the subprocess timed out
(subprocess.TimeoutExpired), exited non-zero, produced output with no
brace-delimited object (the regex search failed), produced an object that does
not decode (json.JSONDecodeError or any other exception), or succeeded with a
decoded flat object, carried in key order. -/
inductive OracleReply where
  | timeout
  | exitFailure
  | noObject
  | decodeError
  | success (translations : Dict)

/-- Whether a reply took one of the four failure branches. -/
def OracleReply.isFailure : OracleReply → Bool
  | .success _ => false
  | _ => true

/-- The failure sentinel string of the source. -/
def FAILED : String := "translation-failed"

/-- The per-format instruction line of _build_prompt. -/
def format_instruction (fmt : String) : String :=
  if fmt = "kebab-case" then "kebab-case（小寫字母和連字號，如 power-board-test）"
  else if fmt = "snake_case" then "snake_case（小寫字母和底線，如 power_board_test）"
  else if fmt = "camelCase" then "camelCase（駝峰命名，如 powerBoardTest）"
  else if fmt = "PascalCase" then "PascalCase（大駝峰命名，如 PowerBoardTest）"
  else if fmt = "lowercase" then "lowercase（純小寫無分隔，如 powerboardtest）"
  else if fmt = "UPPERCASE" then "UPPERCASE（純大寫底線分隔，如 POWER_BOARD_TEST）"
  else fmt

/-- Translator._build_prompt: the requirements header, the optional context
block (only when the context is present and non-empty, as Python truthiness
gives), and the 1-based enumerated list of the texts in input order. -/
def build_prompt (tr : Translator) (texts : List String) : String :=
  let format_desc := format_instruction tr.output_format
  let texts_list := String.intercalate "\n"
    (texts.enum.map (fun p => toString (p.1 + 1) ++ ". " ++ p.2))
  let base := "將以下中文文字翻譯為簡短的英文。\n\n要求：\n- 使用 " ++ format_desc
    ++ " 格式\n- 每個翻譯不超過 " ++ toString tr.max_length
    ++ " 個字元\n- 翻譯應簡潔且具有描述性\n- 輸出格式為 JSON 物件，key 是原始中文，value 是英文翻譯\n- 只輸出 JSON，不要有其他文字\n"
  let withCtx :=
    match tr.context with
    | some ctx => if ctx = "" then base
        else base ++ "\n背景資訊（請參考以下 context 來理解專業術語和領域知識）：\n---\n" ++ ctx ++ "\n---\n"
    | none => base
  withCtx ++ "\n需要翻譯的文字：\n" ++ texts_list

/-- The body of the cache-probing loop of batch_translate: one cache.get per
occurrence in the input list; a truthy hit is written into the result dict, a
miss (absent entry, or a cached empty string, which Python truthiness treats
as a miss) is appended to the to-translate list. -/
def scanStep (pyHash : String → Int) (tr : Translator) (acc : Dict × List String)
    (text : String) : Dict × List String :=
  match cache_get pyHash tr.cache text tr.context tr.output_format with
  | some cached => if cached = "" then (acc.1, acc.2 ++ [text]) else (dinsert acc.1 text cached, acc.2)
  | none => (acc.1, acc.2 ++ [text])

/-- The per-entry formatting-and-validation rule of the success branch of
batch_translate: format the raw translation; keep it if its length is within
max_length plus the slack of 10, otherwise truncate to max_length. -/
def formatAndClip (fmt : String) (maxLen : Nat) (raw : String) : String :=
  let formatted := format_output fmt raw
  if formatted.data.length ≤ maxLen + 10 then formatted
  else ⟨formatted.data.take maxLen⟩

/-- The loop body writing one parsed oracle entry into the result dict. -/
def transStep (fmt : String) (maxLen : Nat) (acc : Dict) (kv : String × String) : Dict :=
  dinsert acc kv.1 (formatAndClip fmt maxLen kv.2)

/-- The dict-merge of the failure branches: every to-translate phrase is
assigned the failure sentinel on top of the cache-hit results. -/
def failFill (r : Dict) (l : List String) : Dict :=
  l.foldl (fun acc t => dinsert acc t FAILED) r

/-- The outcome of one batch_translate call: the returned mapping, the cache
dictionary afterwards, the list of phrases probed against the cache in order
(instrumentation: the source performs exactly one cache.get per element of
this list), and whether the oracle was invoked (the source invokes it at most
once per call). -/
structure BatchResult where
  results : Dict
  cache : Dict
  probes : List String
  oracleCalled : Bool

/-- Translator.batch_translate. Empty input returns the empty mapping at once;
otherwise each input occurrence is probed against the cache; if nothing is
left to translate the cache hits are returned without invoking the oracle;
otherwise the oracle is invoked once on the built prompt, a failure reply
resolves every to-translate phrase to the failure sentinel and leaves the
cache untouched, and a success reply formats and clips every parsed entry into
the results and persists exactly the entries whose keys are in the
to-translate list. -/
def batch_translate (pyHash : String → Int) (oracle : String → OracleReply) (tr : Translator)
    (texts : List String) : BatchResult :=
  if texts.isEmpty then ⟨[], tr.cache, [], false⟩
  else
    let scan := texts.foldl (scanStep pyHash tr) ([], [])
    if scan.2.isEmpty then ⟨scan.1, tr.cache, texts, false⟩
    else
      match oracle (build_prompt tr scan.2) with
      | .success translations =>
        let results2 := translations.foldl (transStep tr.output_format tr.max_length) scan.1
        ⟨results2,
         cache_set_batch pyHash tr.cache (results2.filter (fun kv => scan.2.contains kv.1))
           tr.context tr.output_format,
         texts, true⟩
      | _ => ⟨failFill scan.1 scan.2, tr.cache, texts, true⟩

/-- Translator.translate: a batch of one, with the sentinel as the default
when the phrase is absent from the returned mapping (the name translate is
taken by the ambient library). -/
def translate_single (pyHash : String → Int) (oracle : String → OracleReply) (tr : Translator)
    (text : String) : String :=
  (dlookup (batch_translate pyHash oracle tr [text]).results text).getD "translation-failed"

/-- The truthiness test the source applies to a cache probe: a hit only when an
entry exists and is non-empty. -/
def truthy_cached (pyHash : String → Int) (tr : Translator) (t : String) : Option String :=
  match cache_get pyHash tr.cache t tr.context tr.output_format with
  | some c => if c = "" then none else some c
  | none => none

/-- One step of the cache-probing loop, restricted to its effect on the result
dict. -/
def hitStep (pyHash : String → Int) (tr : Translator) (r : Dict) (t : String) : Dict :=
  match truthy_cached pyHash tr t with
  | some v => dinsert r t v
  | none => r

/-- The cache-hit results accumulated by the probing loop. -/
def hitsDict (pyHash : String → Int) (tr : Translator) (texts : List String) : Dict :=
  texts.foldl (hitStep pyHash tr) []

/-- The to-translate list accumulated by the probing loop: the input
occurrences, in order and with multiplicity, whose probe is not truthy. -/
def missesList (pyHash : String → Int) (tr : Translator) (texts : List String) : List String :=
  texts.filter (fun t => (truthy_cached pyHash tr t).isNone)

theorem scan_foldl (pyHash : String → Int) (tr : Translator) (texts : List String)
    (r0 : Dict) (l0 : List String) :
    texts.foldl (scanStep pyHash tr) (r0, l0) =
      (texts.foldl (hitStep pyHash tr) r0,
       l0 ++ texts.filter (fun t => (truthy_cached pyHash tr t).isNone)) := by
  induction texts generalizing r0 l0 with
  | nil => simp
  | cons t ts ih =>
    simp only [List.foldl_cons, List.filter_cons]
    cases hc : cache_get pyHash tr.cache t tr.context tr.output_format with
    | none =>
      have h1 : truthy_cached pyHash tr t = none := by simp [truthy_cached, hc]
      rw [show scanStep pyHash tr (r0, l0) t = (r0, l0 ++ [t]) from by simp [scanStep, hc]]
      rw [ih, show hitStep pyHash tr r0 t = r0 from by simp [hitStep, h1]]
      simp [h1]
    | some c =>
      by_cases hce : c = ""
      · subst hce
        have h1 : truthy_cached pyHash tr t = none := by simp [truthy_cached, hc]
        rw [show scanStep pyHash tr (r0, l0) t = (r0, l0 ++ [t]) from by simp [scanStep, hc]]
        rw [ih, show hitStep pyHash tr r0 t = r0 from by simp [hitStep, h1]]
        simp [h1]
      · have h1 : truthy_cached pyHash tr t = some c := by simp [truthy_cached, hc, hce]
        rw [show scanStep pyHash tr (r0, l0) t = (dinsert r0 t c, l0) from by simp [scanStep, hc, hce]]
        rw [ih, show hitStep pyHash tr r0 t = dinsert r0 t c from by simp [hitStep, h1]]
        simp [h1]

theorem hits_lookup (pyHash : String → Int) (tr : Translator) (texts : List String)
    (r0 : Dict) (k : String) :
    dlookup (texts.foldl (hitStep pyHash tr) r0) k =
      match truthy_cached pyHash tr k with
      | some v => if k ∈ texts then some v else dlookup r0 k
      | none => dlookup r0 k := by
  induction texts generalizing r0 with
  | nil => cases hk : truthy_cached pyHash tr k <;> simp
  | cons t ts ih =>
    simp only [List.foldl_cons]
    rw [ih]
    cases hk : truthy_cached pyHash tr k with
    | none =>
      cases ht : truthy_cached pyHash tr t with
      | none => simp [hitStep, ht]
      | some w =>
        have hne : k ≠ t := by
          intro he
          rw [he, ht] at hk
          cases hk
        simp only [hitStep, ht]
        exact dlookup_dinsert_ne r0 t w k hne
    | some v =>
      by_cases hmem : k ∈ ts
      · simp [hmem]
      · by_cases hkt : k = t
        · subst hkt
          simp [hitStep, hk, hmem, dlookup_dinsert_self]
        · have hm2 : ¬ k ∈ t :: ts := by simp [hkt, hmem]
          simp only [if_neg hmem, if_neg hm2]
          cases ht : truthy_cached pyHash tr t with
          | none => simp [hitStep, ht]
          | some w =>
            simp only [hitStep, ht]
            exact dlookup_dinsert_ne r0 t w k hkt

theorem hits_nodup (pyHash : String → Int) (tr : Translator) (texts : List String)
    (r0 : Dict) (h : (dkeys r0).Nodup) :
    (dkeys (texts.foldl (hitStep pyHash tr) r0)).Nodup := by
  induction texts generalizing r0 with
  | nil => exact h
  | cons t ts ih =>
    simp only [List.foldl_cons]
    apply ih
    cases ht : truthy_cached pyHash tr t with
    | none => simpa [hitStep, ht] using h
    | some v =>
      simp only [hitStep, ht]
      exact nodup_dkeys_dinsert _ _ _ h

theorem hits_mem (pyHash : String → Int) (tr : Translator) (texts : List String)
    (r0 : Dict) (kv : String × String) (h : kv ∈ texts.foldl (hitStep pyHash tr) r0) :
    kv ∈ r0 ∨ truthy_cached pyHash tr kv.1 = some kv.2 := by
  induction texts generalizing r0 with
  | nil => exact Or.inl h
  | cons t ts ih =>
    simp only [List.foldl_cons] at h
    rcases ih _ h with h1 | h1
    · cases ht : truthy_cached pyHash tr t with
      | none =>
        rw [hitStep, ht] at h1
        exact Or.inl h1
      | some v =>
        rw [hitStep, ht] at h1
        rcases mem_dinsert _ _ _ _ h1 with h2 | rfl
        · exact Or.inl h2
        · exact Or.inr ht
    · exact Or.inr h1

theorem failFill_lookup (l : List String) (r0 : Dict) (k : String) :
    dlookup (failFill r0 l) k = if k ∈ l then some FAILED else dlookup r0 k := by
  induction l generalizing r0 with
  | nil => simp [failFill]
  | cons t ts ih =>
    simp only [failFill, List.foldl_cons] at *
    rw [ih]
    by_cases hmem : k ∈ ts
    · simp [hmem]
    · by_cases hkt : k = t
      · subst hkt
        simp [hmem, dlookup_dinsert_self]
      · have hm2 : ¬ k ∈ t :: ts := by simp [hkt, hmem]
        rw [if_neg hmem, if_neg hm2]
        exact dlookup_dinsert_ne r0 t FAILED k hkt

theorem failFill_nodup (l : List String) (r0 : Dict) (h : (dkeys r0).Nodup) :
    (dkeys (failFill r0 l)).Nodup := by
  induction l generalizing r0 with
  | nil => exact h
  | cons t ts ih =>
    simp only [failFill, List.foldl_cons] at *
    exact ih _ (nodup_dkeys_dinsert _ _ _ h)

theorem failFill_mem (l : List String) (r0 : Dict) (kv : String × String)
    (h : kv ∈ failFill r0 l) : kv ∈ r0 ∨ kv.2 = FAILED := by
  induction l generalizing r0 with
  | nil => exact Or.inl h
  | cons t ts ih =>
    simp only [failFill, List.foldl_cons] at h
    rcases ih _ h with h1 | h1
    · rcases mem_dinsert _ _ _ _ h1 with h2 | rfl
      · exact Or.inl h2
      · exact Or.inr rfl
    · exact Or.inr h1

theorem trans_lookup_not_mem (fmt : String) (maxLen : Nat) (trs : Dict) (r0 : Dict) (k : String)
    (h : k ∉ dkeys trs) :
    dlookup (trs.foldl (transStep fmt maxLen) r0) k = dlookup r0 k := by
  induction trs generalizing r0 with
  | nil => rfl
  | cons kv rest ih =>
    simp only [dkeys, List.map_cons, List.mem_cons, not_or] at h
    simp only [List.foldl_cons]
    rw [ih _ (by simpa [dkeys] using h.2)]
    exact dlookup_dinsert_ne r0 kv.1 _ k h.1

theorem trans_lookup_mem (fmt : String) (maxLen : Nat) (trs : Dict) (k raw : String) :
    ∀ (r0 : Dict), (dkeys trs).Nodup → (k, raw) ∈ trs →
      dlookup (trs.foldl (transStep fmt maxLen) r0) k = some (formatAndClip fmt maxLen raw) := by
  induction trs with
  | nil =>
    intro r0 _ hmem
    cases hmem
  | cons kv rest ih =>
    intro r0 hnd hmem
    simp only [dkeys, List.map_cons, List.nodup_cons] at hnd
    simp only [List.foldl_cons]
    rcases List.mem_cons.mp hmem with heq | h2
    · have hk : k ∉ dkeys rest := by
        rw [← heq] at hnd
        simpa [dkeys] using hnd.1
      rw [trans_lookup_not_mem _ _ _ _ _ hk, ← heq]
      exact dlookup_dinsert_self r0 k (formatAndClip fmt maxLen raw)
    · exact ih _ (by simpa [dkeys] using hnd.2) h2

theorem trans_nodup (fmt : String) (maxLen : Nat) (trs : Dict) (r0 : Dict)
    (h : (dkeys r0).Nodup) :
    (dkeys (trs.foldl (transStep fmt maxLen) r0)).Nodup := by
  induction trs generalizing r0 with
  | nil => exact h
  | cons kv rest ih =>
    simp only [List.foldl_cons]
    exact ih _ (nodup_dkeys_dinsert _ _ _ h)

theorem trans_mem (fmt : String) (maxLen : Nat) (trs : Dict) (r0 : Dict) (kv : String × String)
    (h : kv ∈ trs.foldl (transStep fmt maxLen) r0) :
    kv ∈ r0 ∨ ∃ kv0 ∈ trs, kv = (kv0.1, formatAndClip fmt maxLen kv0.2) := by
  induction trs generalizing r0 with
  | nil => exact Or.inl h
  | cons kv1 rest ih =>
    simp only [List.foldl_cons] at h
    rcases ih _ h with h1 | ⟨kv0, h2, h3⟩
    · rcases mem_dinsert _ _ _ _ h1 with h2 | h2
      · exact Or.inl h2
      · exact Or.inr ⟨kv1, List.mem_cons_self _ _, h2⟩
    · exact Or.inr ⟨kv0, List.mem_cons_of_mem _ h2, h3⟩

theorem trans_keys_sub (fmt : String) (maxLen : Nat) (trs : Dict) (r0 : Dict) (k : String)
    (h : k ∈ dkeys (trs.foldl (transStep fmt maxLen) r0)) :
    k ∈ dkeys r0 ∨ k ∈ dkeys trs := by
  induction trs generalizing r0 with
  | nil => exact Or.inl h
  | cons kv rest ih =>
    simp only [List.foldl_cons] at h
    rcases ih _ h with h1 | h1
    · rcases (mem_dkeys_dinsert _ _ _ _).mp h1 with h2 | rfl
      · exact Or.inl h2
      · refine Or.inr ?_
        simp only [dkeys, List.map_cons, List.mem_cons]
        exact Or.inl trivial
    · refine Or.inr ?_
      simp only [dkeys, List.map_cons, List.mem_cons]
      exact Or.inr (by simpa [dkeys] using h1)

theorem cache_set_batch_lookup_other (pyHash : String → Int) (d nt : Dict)
    (ctx : Option String) (fmt key : String)
    (h : ∀ kv ∈ nt, key ≠ make_key pyHash ctx fmt kv.1) :
    dlookup (cache_set_batch pyHash d nt ctx fmt) key = dlookup d key := by
  induction nt generalizing d with
  | nil => rfl
  | cons kv rest ih =>
    simp only [cache_set_batch, List.foldl_cons] at *
    rw [ih _ (fun kv0 h0 => h kv0 (List.mem_cons_of_mem _ h0))]
    exact dlookup_dinsert_ne d _ _ key (h kv (List.mem_cons_self _ _))

theorem formatAndClip_length (fmt : String) (maxLen : Nat) (raw : String) :
    (formatAndClip fmt maxLen raw).data.length ≤ maxLen + 10 := by
  unfold formatAndClip
  by_cases h : (format_output fmt raw).data.length ≤ maxLen + 10
  · rw [if_pos h]
    exact h
  · rw [if_neg h]
    simp only [List.length_take]
    omega

theorem formatAndClip_keep (fmt : String) (maxLen : Nat) (raw : String)
    (h : (format_output fmt raw).data.length ≤ maxLen + 10) :
    formatAndClip fmt maxLen raw = format_output fmt raw := by
  unfold formatAndClip
  rw [if_pos h]

theorem formatAndClip_truncate (fmt : String) (maxLen : Nat) (raw : String)
    (h : maxLen + 10 < (format_output fmt raw).data.length) :
    formatAndClip fmt maxLen raw = ⟨(format_output fmt raw).data.take maxLen⟩
    ∧ (formatAndClip fmt maxLen raw).data.length = maxLen := by
  unfold formatAndClip
  rw [if_neg (by omega)]
  refine ⟨rfl, ?_⟩
  simp only [List.length_take]
  omega

theorem batch_translate_eq (pyHash : String → Int) (oracle : String → OracleReply)
    (tr : Translator) (texts : List String) (hne : texts ≠ []) :
    batch_translate pyHash oracle tr texts =
      if (missesList pyHash tr texts).isEmpty then
        ⟨hitsDict pyHash tr texts, tr.cache, texts, false⟩
      else
        match oracle (build_prompt tr (missesList pyHash tr texts)) with
        | .success translations =>
          ⟨translations.foldl (transStep tr.output_format tr.max_length) (hitsDict pyHash tr texts),
           cache_set_batch pyHash tr.cache
             ((translations.foldl (transStep tr.output_format tr.max_length)
                 (hitsDict pyHash tr texts)).filter
               (fun kv => (missesList pyHash tr texts).contains kv.1))
             tr.context tr.output_format,
           texts, true⟩
        | _ => ⟨failFill (hitsDict pyHash tr texts) (missesList pyHash tr texts),
                tr.cache, texts, true⟩ := by
  unfold batch_translate
  rw [if_neg (by simpa using hne)]
  rw [scan_foldl pyHash tr texts [] []]
  rfl

theorem mem_missesList (pyHash : String → Int) (tr : Translator) (texts : List String)
    (t : String) :
    t ∈ missesList pyHash tr texts ↔ t ∈ texts ∧ truthy_cached pyHash tr t = none := by
  simp [missesList, List.mem_filter, Option.isNone_iff_eq_none]

/-- C8: the Output Formatter satisfies the formatting table of the spec on all
six conventions. -/
theorem claim_C8 :
    format_output "kebab-case" "Power Board" = "power-board"
    ∧ format_output "snake_case" "Power Board" = "power_board"
    ∧ format_output "camelCase" "Power Board" = "powerBoard"
    ∧ format_output "PascalCase" "power board test" = "PowerBoardTest"
    ∧ format_output "lowercase" "Power-Board" = "powerboard"
    ∧ format_output "UPPERCASE" "power board" = "POWER_BOARD" := by decide

/-- C4 is false as stated: re-applying the formatter is not a fixed point for
the camelCase and PascalCase conventions, already on the single-line phrase
Power Board, because the second application lowercases the interior capital
letters the first application produced. -/
theorem claim_C4_counterexample :
    format_output "camelCase" (format_output "camelCase" "Power Board")
      ≠ format_output "camelCase" "Power Board"
    ∧ format_output "PascalCase" (format_output "PascalCase" "Power Board")
      ≠ format_output "PascalCase" "Power Board" := by decide

/-- C4 (amended): the Output Formatter is idempotent on every input for the
four formats kebab-case, snake_case, lowercase and UPPERCASE; for camelCase
and PascalCase re-applying the formatter lowercases the interior capitals of
the first output, so idempotence fails there (see the counterexample). -/
theorem claim_C4 (f : String) (s : String)
    (hf : f = "kebab-case" ∨ f = "snake_case" ∨ f = "lowercase" ∨ f = "UPPERCASE") :
    format_output f (format_output f s) = format_output f s := by
  rcases hf with rfl | rfl | rfl | rfl
  · exact kebab_idem s
  · exact snake_idem s
  · exact lowercase_idem s
  · exact upper_idem s

theorem claim_C4_witness :
    format_output "kebab-case" (format_output "kebab-case" "Power Board")
      = format_output "kebab-case" "Power Board" :=
  claim_C4 "kebab-case" "Power Board" (Or.inl rfl)

/-- Whatever function the per-process Python string hash happens to be, its
bucket modulo 10000 has collisions (pigeonhole over 10001 distinct context
strings), and for two distinct colliding contexts an entry cached by set under
the first context is returned by get under the second, not absent. -/
theorem context_bucket_collision :
    ∀ pyHash : String → Int, ∃ ctxA ctxB : String, ctxA ≠ ctxB ∧
      cache_get pyHash (cache_set pyHash [] "p" (some ctxA) "kebab-case" "x")
        "p" (some ctxB) "kebab-case" = some "x" := by
  intro pyHash
  have hbound : ∀ s : String, (pyHash s % 10000).toNat < 10000 := by
    intro s
    have h1 : 0 ≤ pyHash s % 10000 := Int.emod_nonneg _ (by norm_num)
    have h2 : pyHash s % 10000 < 10000 := Int.emod_lt_of_pos _ (by norm_num)
    omega
  obtain ⟨i, j, hij, hb⟩ := Fintype.exists_ne_map_eq_of_card_lt
    (fun n : Fin 10001 =>
      (⟨(pyHash ⟨List.replicate n.val 'a'⟩ % 10000).toNat, hbound _⟩ : Fin 10000))
    (by simp only [Fintype.card_fin]; omega)
  refine ⟨⟨List.replicate i.val 'a'⟩, ⟨List.replicate j.val 'a'⟩, ?_, ?_⟩
  · intro h
    apply hij
    have hlen := congrArg (fun s : String => s.data.length) h
    simp only [List.length_replicate] at hlen
    exact Fin.ext hlen
  · have hfin := congrArg Fin.val hb
    simp only at hfin
    have h1 : 0 ≤ pyHash ⟨List.replicate i.val 'a'⟩ % 10000 := Int.emod_nonneg _ (by norm_num)
    have h2 : 0 ≤ pyHash ⟨List.replicate j.val 'a'⟩ % 10000 := Int.emod_nonneg _ (by norm_num)
    have hkey : make_key pyHash (some ⟨List.replicate j.val 'a'⟩) "kebab-case" "p"
        = make_key pyHash (some ⟨List.replicate i.val 'a'⟩) "kebab-case" "p" := by
      unfold make_key
      simp only [Option.getD_some]
      have heq : pyHash ⟨List.replicate j.val 'a'⟩ % 10000
          = pyHash ⟨List.replicate i.val 'a'⟩ % 10000 := by omega
      rw [heq]
    unfold cache_get cache_set
    rw [hkey]
    exact dlookup_dinsert_self [] _ "x"

/-- C3 is false as stated: the context enters the cache key only through its
hash bucket modulo 10000, so two distinct contexts whose buckets coincide - a
collision that exists for every possible hash function, as the lemma above
shows - make get return the entry cached under the other context; here a
concrete colliding instance, with the injected hash taken to be the string
length. -/
theorem claim_C3_counterexample :
    "aa" ≠ "bb"
    ∧ cache_get (fun s => (s.length : Int))
        (cache_set (fun s => (s.length : Int)) [] "p" (some "aa") "kebab-case" "x")
        "p" (some "bb") "kebab-case" = some "x" := by decide

/-- C3 (amended): the context takes part in cache-key identity only through
its bounded hash bucket (the Python hash modulo 10000): after set under ctxA,
get under ctxB on a fresh store returns the cached value whenever the two
buckets coincide (a false hit, possible for distinct contexts), and returns
absent whenever the composite keys differ. -/
theorem claim_C3 (pyHash : String → Int) (p f ctxA ctxB x : String) :
    (pyHash ctxA % 10000 = pyHash ctxB % 10000 →
      cache_get pyHash (cache_set pyHash [] p (some ctxA) f x) p (some ctxB) f = some x)
    ∧ (make_key pyHash (some ctxB) f p ≠ make_key pyHash (some ctxA) f p →
      cache_get pyHash (cache_set pyHash [] p (some ctxA) f x) p (some ctxB) f = none) := by
  constructor
  · intro h
    have hkey : make_key pyHash (some ctxB) f p = make_key pyHash (some ctxA) f p := by
      unfold make_key
      simp only [Option.getD_some]
      rw [← h]
    unfold cache_get cache_set
    rw [hkey]
    exact dlookup_dinsert_self [] _ x
  · intro h
    unfold cache_get cache_set
    rw [dlookup_dinsert_ne [] _ x _ h]
    rfl

theorem claim_C3_witness :
    cache_get (fun s => (s.length : Int))
      (cache_set (fun s => (s.length : Int)) [] "p" (some "aa") "kebab-case" "x")
      "p" (some "bb") "kebab-case" = some "x"
    ∧ cache_get (fun s => (s.length : Int))
      (cache_set (fun s => (s.length : Int)) [] "p" (some "a") "kebab-case" "x")
      "p" (some "bb") "kebab-case" = none := by
  constructor
  · exact (claim_C3 (fun s => (s.length : Int)) "p" "kebab-case" "aa" "bb" "x").1 (by decide)
  · exact (claim_C3 (fun s => (s.length : Int)) "p" "kebab-case" "a" "bb" "x").2 (by decide)

theorem dlookup_isSome_iff (d : Dict) (k : String) :
    (dlookup d k).isSome = true ↔ k ∈ dkeys d := by
  rcases h : dlookup d k with _ | v
  · simp only [Option.isSome_none, Bool.false_eq_true, false_iff]
    exact (dlookup_eq_none_iff d k).mp h
  · simp only [Option.isSome_some, true_iff]
    exact List.mem_map_of_mem Prod.fst (mem_of_dlookup d k v h)

theorem hitsDict_lookup (pyHash : String → Int) (tr : Translator) (texts : List String)
    (k : String) :
    dlookup (hitsDict pyHash tr texts) k =
      match truthy_cached pyHash tr k with
      | some v => if k ∈ texts then some v else none
      | none => none := by
  unfold hitsDict
  rw [hits_lookup]
  rfl

theorem hitsDict_keys (pyHash : String → Int) (tr : Translator) (texts : List String)
    (t : String) :
    t ∈ dkeys (hitsDict pyHash tr texts) ↔
      t ∈ texts ∧ (truthy_cached pyHash tr t).isSome = true := by
  rw [← dlookup_isSome_iff, hitsDict_lookup]
  cases htr : truthy_cached pyHash tr t with
  | none => simp
  | some v =>
    by_cases hmem : t ∈ texts
    · simp [hmem]
    · simp [hmem]

theorem failcase_lookup (pyHash : String → Int) (tr : Translator) (texts : List String)
    (t : String) (ht : t ∈ texts) :
    dlookup (failFill (hitsDict pyHash tr texts) (missesList pyHash tr texts)) t
      = some (match truthy_cached pyHash tr t with | some v => v | none => FAILED) := by
  rw [failFill_lookup]
  cases htr : truthy_cached pyHash tr t with
  | none =>
    rw [if_pos ((mem_missesList pyHash tr texts t).mpr ⟨ht, htr⟩)]
  | some v =>
    have hnm : t ∉ missesList pyHash tr texts := by
      intro hmem
      have h0 := ((mem_missesList pyHash tr texts t).mp hmem).2
      rw [htr] at h0
      cases h0
    rw [if_neg hnm, hitsDict_lookup, htr]
    simp [ht]

theorem failcase_keys (pyHash : String → Int) (tr : Translator) (texts : List String)
    (t : String) :
    t ∈ dkeys (failFill (hitsDict pyHash tr texts) (missesList pyHash tr texts)) ↔ t ∈ texts := by
  rw [← dlookup_isSome_iff]
  constructor
  · intro h
    rw [failFill_lookup] at h
    by_cases hmem : t ∈ missesList pyHash tr texts
    · exact ((mem_missesList pyHash tr texts t).mp hmem).1
    · rw [if_neg hmem, hitsDict_lookup] at h
      cases htr : truthy_cached pyHash tr t with
      | none =>
        simp only [htr] at h
        simp at h
      | some v =>
        simp only [htr] at h
        by_cases hmem2 : t ∈ texts
        · exact hmem2
        · rw [if_neg hmem2] at h
          simp at h
  · intro h
    rw [failcase_lookup pyHash tr texts t h]
    rfl

theorem isEmpty_false_of_ne_nil {α : Type} {l : List α} (h : l ≠ []) : l.isEmpty = false := by
  cases l with
  | nil => exact absurd rfl h
  | cons a as => rfl

/-- C5 is false as stated: on the duplicated input the engine performs two
cache probes for the phrase, one per occurrence, not exactly one — though the
returned mapping does contain exactly one key for it. -/
theorem claim_C5_counterexample :
    (batch_translate (fun _ => 0) (fun _ => OracleReply.timeout)
      ⟨"kebab-case", 30, none, []⟩ ["電源板", "電源板"]).probes.count "電源板" = 2
    ∧ ¬ ((batch_translate (fun _ => 0) (fun _ => OracleReply.timeout)
      ⟨"kebab-case", 30, none, []⟩ ["電源板", "電源板"]).probes.count "電源板" = 1)
    ∧ dkeys (batch_translate (fun _ => 0) (fun _ => OracleReply.timeout)
      ⟨"kebab-case", 30, none, []⟩ ["電源板", "電源板"]).results = ["電源板"] := by decide

/-- C5 (amended): batch_translate probes the cache once per input occurrence,
in input order — a phrase appearing n times is probed n times, and a missed
duplicate appears once per occurrence in the to-translate list of the single
prompt — the oracle is invoked at most once per call, exactly when the input
is non-empty and some occurrence misses, and the returned mapping contains at
most one key for any phrase. -/
theorem claim_C5 (pyHash : String → Int) (oracle : String → OracleReply) (tr : Translator)
    (texts : List String) :
    (batch_translate pyHash oracle tr texts).probes = texts
    ∧ (dkeys (batch_translate pyHash oracle tr texts).results).Nodup
    ∧ (batch_translate pyHash oracle tr texts).oracleCalled
        = (!texts.isEmpty && !(missesList pyHash tr texts).isEmpty) := by
  by_cases hne : texts = []
  · subst hne
    exact ⟨rfl, List.nodup_nil, rfl⟩
  · have ht : texts.isEmpty = false := isEmpty_false_of_ne_nil hne
    rw [batch_translate_eq pyHash oracle tr texts hne]
    by_cases hm : (missesList pyHash tr texts).isEmpty
    · rw [if_pos hm]
      refine ⟨rfl, ?_, ?_⟩
      · exact hits_nodup _ _ _ _ List.nodup_nil
      · simp [hm, ht]
    · rw [if_neg hm]
      have hm2 : (missesList pyHash tr texts).isEmpty = false := by
        cases h0 : (missesList pyHash tr texts).isEmpty
        · rfl
        · exact absurd h0 hm
      cases ho : oracle (build_prompt tr (missesList pyHash tr texts)) with
      | success translations =>
        exact ⟨rfl, trans_nodup _ _ _ _ (hits_nodup _ _ _ _ List.nodup_nil), by simp [hm2, ht]⟩
      | timeout =>
        exact ⟨rfl, failFill_nodup _ _ (hits_nodup _ _ _ _ List.nodup_nil), by simp [hm2, ht]⟩
      | exitFailure =>
        exact ⟨rfl, failFill_nodup _ _ (hits_nodup _ _ _ _ List.nodup_nil), by simp [hm2, ht]⟩
      | noObject =>
        exact ⟨rfl, failFill_nodup _ _ (hits_nodup _ _ _ _ List.nodup_nil), by simp [hm2, ht]⟩
      | decodeError =>
        exact ⟨rfl, failFill_nodup _ _ (hits_nodup _ _ _ _ List.nodup_nil), by simp [hm2, ht]⟩

theorem batch_results_nodup (pyHash : String → Int) (oracle : String → OracleReply)
    (tr : Translator) (texts : List String) :
    (dkeys (batch_translate pyHash oracle tr texts).results).Nodup := by
  by_cases hne : texts = []
  · subst hne
    exact List.nodup_nil
  · rw [batch_translate_eq pyHash oracle tr texts hne]
    by_cases hm : (missesList pyHash tr texts).isEmpty
    · rw [if_pos hm]
      exact hits_nodup _ _ _ _ List.nodup_nil
    · rw [if_neg hm]
      cases ho : oracle (build_prompt tr (missesList pyHash tr texts)) with
      | success translations => exact trans_nodup _ _ _ _ (hits_nodup _ _ _ _ List.nodup_nil)
      | timeout => exact failFill_nodup _ _ (hits_nodup _ _ _ _ List.nodup_nil)
      | exitFailure => exact failFill_nodup _ _ (hits_nodup _ _ _ _ List.nodup_nil)
      | noObject => exact failFill_nodup _ _ (hits_nodup _ _ _ _ List.nodup_nil)
      | decodeError => exact failFill_nodup _ _ (hits_nodup _ _ _ _ List.nodup_nil)

/-- C1 is false as stated: with an empty cache and an oracle call that
succeeds with an empty decoded object, batch_translate on the one-phrase input
returns a mapping with no entry at all for the phrase — the to-translate
phrase absent from the parsed mapping is dropped, not mapped to the failure
sentinel. -/
theorem claim_C1_counterexample :
    dlookup (batch_translate (fun _ => 0) (fun _ => OracleReply.success [])
      ⟨"kebab-case", 30, none, []⟩ ["a"]).results "a" = none
    ∧ ¬ (dlookup (batch_translate (fun _ => 0) (fun _ => OracleReply.success [])
      ⟨"kebab-case", 30, none, []⟩ ["a"]).results "a" = some FAILED) := by decide

/-- C1 (amended): the returned mapping never holds two entries for one phrase;
when the oracle call fails (or every phrase hits the cache) the mapping has
exactly one entry per unique input phrase, each a cache hit or the failure
sentinel, and in particular every missed phrase maps to the sentinel; but when
the oracle call succeeds, a to-translate phrase that is absent from the parsed
object is absent from the returned mapping rather than mapped to the
sentinel. -/
theorem claim_C1 (pyHash : String → Int) (oracle : String → OracleReply) (tr : Translator)
    (texts : List String) (r : OracleReply) (horacle : ∀ s, oracle s = r) :
    (dkeys (batch_translate pyHash oracle tr texts).results).Nodup
    ∧ (r.isFailure = true →
        (∀ t, t ∈ dkeys (batch_translate pyHash oracle tr texts).results ↔ t ∈ texts)
        ∧ ∀ t ∈ texts, truthy_cached pyHash tr t = none →
            dlookup (batch_translate pyHash oracle tr texts).results t = some FAILED)
    ∧ (∀ translations, r = OracleReply.success translations →
        ∀ t ∈ texts, truthy_cached pyHash tr t = none → t ∉ dkeys translations →
          dlookup (batch_translate pyHash oracle tr texts).results t = none) := by
  by_cases hne : texts = []
  · subst hne
    refine ⟨List.nodup_nil, ?_, ?_⟩
    · intro _
      refine ⟨fun t => ?_, fun t ht => absurd ht (List.not_mem_nil t)⟩
      constructor
      · intro h
        exact absurd (show t ∈ ([] : List String) from h) (List.not_mem_nil t)
      · intro h
        exact absurd h (List.not_mem_nil t)
    · intro translations heq t ht _ _
      exact absurd ht (List.not_mem_nil t)
  · refine ⟨batch_results_nodup pyHash oracle tr texts, ?_, ?_⟩
    · intro hfail
      by_cases hm : (missesList pyHash tr texts).isEmpty
      · have hmnil : missesList pyHash tr texts = [] := by
          cases h0 : missesList pyHash tr texts with
          | nil => rfl
          | cons a as =>
            rw [h0] at hm
            cases hm
        have hres : (batch_translate pyHash oracle tr texts).results = hitsDict pyHash tr texts := by
          rw [batch_translate_eq pyHash oracle tr texts hne, if_pos hm]
        constructor
        · intro t
          rw [hres, hitsDict_keys]
          constructor
          · exact fun h => h.1
          · intro h
            refine ⟨h, ?_⟩
            cases htr : truthy_cached pyHash tr t with
            | none =>
              have hmem : t ∈ missesList pyHash tr texts :=
                (mem_missesList pyHash tr texts t).mpr ⟨h, htr⟩
              rw [hmnil] at hmem
              exact absurd hmem (List.not_mem_nil t)
            | some v => rfl
        · intro t ht htr
          have hmem : t ∈ missesList pyHash tr texts :=
            (mem_missesList pyHash tr texts t).mpr ⟨ht, htr⟩
          rw [hmnil] at hmem
          exact absurd hmem (List.not_mem_nil t)
      · have hres : (batch_translate pyHash oracle tr texts).results
            = failFill (hitsDict pyHash tr texts) (missesList pyHash tr texts) := by
          rw [batch_translate_eq pyHash oracle tr texts hne, if_neg hm, horacle]
          cases r with
          | success translations =>
            simp [OracleReply.isFailure] at hfail
          | timeout => rfl
          | exitFailure => rfl
          | noObject => rfl
          | decodeError => rfl
        constructor
        · intro t
          rw [hres]
          exact failcase_keys pyHash tr texts t
        · intro t ht htr
          rw [hres, failcase_lookup pyHash tr texts t ht]
          simp only [htr]
    · intro translations heq t ht htr hnk
      subst heq
      have hmem : t ∈ missesList pyHash tr texts :=
        (mem_missesList pyHash tr texts t).mpr ⟨ht, htr⟩
      have hm : (missesList pyHash tr texts).isEmpty = false :=
        isEmpty_false_of_ne_nil (fun h0 => by
          rw [h0] at hmem
          exact absurd hmem (List.not_mem_nil t))
      have hres : (batch_translate pyHash oracle tr texts).results
          = translations.foldl (transStep tr.output_format tr.max_length)
              (hitsDict pyHash tr texts) := by
        rw [batch_translate_eq pyHash oracle tr texts hne, if_neg (by simp [hm]), horacle]
      rw [hres, trans_lookup_not_mem _ _ _ _ _ hnk, hitsDict_lookup]
      simp only [htr]

/-- C2 is false as stated: a first call that succeeds (the oracle covers the
phrase, nothing resolves to the sentinel) and populates the cache can still
invoke the oracle on the second identical call, because the cached translation
is the empty string and the truthiness probe treats it as a miss. -/
theorem claim_C2_counterexample :
    (batch_translate (fun _ => 0) (fun _ => OracleReply.success [("a", "")])
      ⟨"kebab-case", 30, none, []⟩ ["a"]).results = [("a", "")]
    ∧ dlookup (batch_translate (fun _ => 0) (fun _ => OracleReply.success [("a", "")])
        ⟨"kebab-case", 30, none, []⟩ ["a"]).cache
        (make_key (fun _ => 0) none "kebab-case" "a") = some ""
    ∧ (batch_translate (fun _ => 0) (fun _ => OracleReply.success [("a", "")])
        ⟨"kebab-case", 30, none,
          (batch_translate (fun _ => 0) (fun _ => OracleReply.success [("a", "")])
            ⟨"kebab-case", 30, none, []⟩ ["a"]).cache⟩ ["a"]).oracleCalled = true := by decide

/-- C2 (amended): with a cache that is warm before the first call — every
input phrase holds a non-empty cached translation — batch_translate never
invokes the oracle, leaves the cache unchanged, and a second call with the
identical phrases, format and context returns exactly the same outcome. -/
theorem claim_C2 (pyHash : String → Int) (oracle : String → OracleReply) (tr : Translator)
    (texts : List String)
    (hwarm : ∀ t ∈ texts, ∃ v,
      cache_get pyHash tr.cache t tr.context tr.output_format = some v ∧ v ≠ "") :
    (batch_translate pyHash oracle tr texts).oracleCalled = false
    ∧ (batch_translate pyHash oracle tr texts).cache = tr.cache
    ∧ batch_translate pyHash oracle
        { tr with cache := (batch_translate pyHash oracle tr texts).cache } texts
      = batch_translate pyHash oracle tr texts := by
  by_cases hne : texts = []
  · subst hne
    exact ⟨rfl, rfl, rfl⟩
  · have hm : missesList pyHash tr texts = [] := by
      apply List.filter_eq_nil_iff.mpr
      intro t ht
      obtain ⟨v, hv, hvne⟩ := hwarm t ht
      simp [truthy_cached, hv, hvne]
    have h1 := batch_translate_eq pyHash oracle tr texts hne
    rw [hm] at h1
    simp only [List.isEmpty_nil, if_true] at h1
    have hc : (batch_translate pyHash oracle tr texts).cache = tr.cache := by rw [h1]
    refine ⟨by rw [h1], hc, ?_⟩
    rw [hc]

theorem claim_C2_witness :
    (batch_translate (fun _ => 0) (fun _ => OracleReply.timeout)
        ⟨"kebab-case", 30, none, [("kebab-case|0|a", "hit")]⟩ ["a"]).oracleCalled = false
    ∧ (batch_translate (fun _ => 0) (fun _ => OracleReply.timeout)
        ⟨"kebab-case", 30, none, [("kebab-case|0|a", "hit")]⟩ ["a"]).cache
      = [("kebab-case|0|a", "hit")]
    ∧ batch_translate (fun _ => 0) (fun _ => OracleReply.timeout)
        { output_format := "kebab-case", max_length := 30, context := none,
          cache := (batch_translate (fun _ => 0) (fun _ => OracleReply.timeout)
            ⟨"kebab-case", 30, none, [("kebab-case|0|a", "hit")]⟩ ["a"]).cache } ["a"]
      = batch_translate (fun _ => 0) (fun _ => OracleReply.timeout)
        ⟨"kebab-case", 30, none, [("kebab-case|0|a", "hit")]⟩ ["a"] := by
  have h := claim_C2 (fun _ => 0) (fun _ => OracleReply.timeout)
    ⟨"kebab-case", 30, none, [("kebab-case|0|a", "hit")]⟩ ["a"]
    (by
      intro t ht
      have ht2 := List.mem_singleton.mp ht
      subst ht2
      exact ⟨"hit", by decide, by decide⟩)
  exact ⟨h.1, h.2.1, h.2.2⟩

/-- C6: on every failure reply — timeout, non-zero exit, output with no
decodable brace-delimited object — batch_translate maps every missed phrase to
the failure sentinel, still returns every cache hit at its cached value, and
leaves the cache dictionary unchanged (failures are never cached); the
embedded call is total, so no exception escapes. -/
theorem claim_C6 (pyHash : String → Int) (oracle : String → OracleReply) (tr : Translator)
    (texts : List String) (r : OracleReply) (horacle : ∀ s, oracle s = r)
    (hfail : r.isFailure = true) :
    (∀ t ∈ texts, dlookup (batch_translate pyHash oracle tr texts).results t
        = some (match truthy_cached pyHash tr t with | some v => v | none => FAILED))
    ∧ (batch_translate pyHash oracle tr texts).cache = tr.cache := by
  by_cases hne : texts = []
  · subst hne
    exact ⟨fun t ht => absurd ht (List.not_mem_nil t), rfl⟩
  · by_cases hm : (missesList pyHash tr texts).isEmpty
    · have hmnil : missesList pyHash tr texts = [] := by
        cases h0 : missesList pyHash tr texts with
        | nil => rfl
        | cons a as =>
          rw [h0] at hm
          cases hm
      have hres : batch_translate pyHash oracle tr texts
          = ⟨hitsDict pyHash tr texts, tr.cache, texts, false⟩ := by
        rw [batch_translate_eq pyHash oracle tr texts hne, if_pos hm]
      refine ⟨?_, by rw [hres]⟩
      intro t ht
      rw [hres]
      show dlookup (hitsDict pyHash tr texts) t = _
      rw [hitsDict_lookup]
      cases htr : truthy_cached pyHash tr t with
      | none =>
        have hmem : t ∈ missesList pyHash tr texts :=
          (mem_missesList pyHash tr texts t).mpr ⟨ht, htr⟩
        rw [hmnil] at hmem
        exact absurd hmem (List.not_mem_nil t)
      | some v => simp [ht]
    · have hres : batch_translate pyHash oracle tr texts
          = ⟨failFill (hitsDict pyHash tr texts) (missesList pyHash tr texts),
             tr.cache, texts, true⟩ := by
        rw [batch_translate_eq pyHash oracle tr texts hne, if_neg hm, horacle]
        cases r with
        | success translations => simp [OracleReply.isFailure] at hfail
        | timeout => rfl
        | exitFailure => rfl
        | noObject => rfl
        | decodeError => rfl
      refine ⟨?_, by rw [hres]⟩
      intro t ht
      rw [hres]
      exact failcase_lookup pyHash tr texts t ht

theorem claim_C6_witness :
    dlookup (batch_translate (fun _ => 0) (fun _ => OracleReply.timeout)
      ⟨"kebab-case", 30, none, []⟩ ["X"]).results "X" = some FAILED
    ∧ (batch_translate (fun _ => 0) (fun _ => OracleReply.timeout)
      ⟨"kebab-case", 30, none, []⟩ ["X"]).cache = [] := by
  have h := claim_C6 (fun _ => 0) (fun _ => OracleReply.timeout)
    ⟨"kebab-case", 30, none, []⟩ ["X"] OracleReply.timeout (fun s => rfl) rfl
  exact ⟨(h.1 "X" (List.mem_singleton.mpr rfl)).trans (by decide), h.2⟩

/-- C9: a cached empty-string translation is treated as a cache miss — the
probe tests truthiness, not presence — so the phrase joins the to-translate
list and the oracle is invoked although a cache entry for the phrase exists. -/
theorem claim_C9 (pyHash : String → Int) (oracle : String → OracleReply) (tr : Translator)
    (texts : List String) (t : String)
    (hcached : cache_get pyHash tr.cache t tr.context tr.output_format = some "")
    (hmem : t ∈ texts) :
    t ∈ missesList pyHash tr texts
    ∧ (batch_translate pyHash oracle tr texts).oracleCalled = true := by
  have htr : truthy_cached pyHash tr t = none := by simp [truthy_cached, hcached]
  have hmiss : t ∈ missesList pyHash tr texts := (mem_missesList _ _ _ _).mpr ⟨hmem, htr⟩
  refine ⟨hmiss, ?_⟩
  have hne : texts ≠ [] := by
    intro h0
    rw [h0] at hmem
    exact absurd hmem (List.not_mem_nil t)
  have hm : ¬ (missesList pyHash tr texts).isEmpty = true := by
    intro h0
    have hnil : missesList pyHash tr texts = [] := by
      cases hc : missesList pyHash tr texts with
      | nil => rfl
      | cons a as =>
        rw [hc] at h0
        cases h0
    rw [hnil] at hmiss
    exact absurd hmiss (List.not_mem_nil t)
  rw [batch_translate_eq pyHash oracle tr texts hne, if_neg hm]
  cases oracle (build_prompt tr (missesList pyHash tr texts)) <;> rfl

theorem claim_C9_witness :
    "a" ∈ missesList (fun _ => 0)
      ⟨"kebab-case", 30, none, [("kebab-case|0|a", "")]⟩ ["a"]
    ∧ (batch_translate (fun _ => 0) (fun _ => OracleReply.timeout)
        ⟨"kebab-case", 30, none, [("kebab-case|0|a", "")]⟩ ["a"]).oracleCalled = true :=
  claim_C9 (fun _ => 0) (fun _ => OracleReply.timeout)
    ⟨"kebab-case", 30, none, [("kebab-case|0|a", "")]⟩ ["a"] "a" (by decide) (by decide)

theorem truthy_cached_some (pyHash : String → Int) (tr : Translator) (t v : String)
    (h : truthy_cached pyHash tr t = some v) :
    cache_get pyHash tr.cache t tr.context tr.output_format = some v := by
  unfold truthy_cached at h
  cases hg : cache_get pyHash tr.cache t tr.context tr.output_format with
  | none =>
    simp only [hg] at h
    exact h
  | some c =>
    simp only [hg] at h
    by_cases hc : c = ""
    · rw [if_pos hc] at h
      cases h
    · rw [if_neg hc] at h
      injection h with h3
      rw [h3]

/-- C7: on a success reply every parsed raw translation is formatted and, when
the formatted length is within max_length plus the fixed slack of 10, kept as
is, and otherwise silently truncated to exactly max_length characters; hence
every value the oracle contributes to the returned mapping has length at most
max_length + 10, and when every cached value also respects that bound, every
value of the returned mapping does; the clip is total, so no length overflow
causes a failure. -/
theorem claim_C7 (pyHash : String → Int) (oracle : String → OracleReply) (tr : Translator)
    (texts : List String) (translations : Dict) (k raw : String)
    (horacle : ∀ s, oracle s = OracleReply.success translations)
    (hnd : (dkeys translations).Nodup)
    (hmem : (k, raw) ∈ translations)
    (hmiss : missesList pyHash tr texts ≠ []) :
    dlookup (batch_translate pyHash oracle tr texts).results k
      = some (formatAndClip tr.output_format tr.max_length raw)
    ∧ (formatAndClip tr.output_format tr.max_length raw).data.length ≤ tr.max_length + 10
    ∧ ((format_output tr.output_format raw).data.length ≤ tr.max_length + 10 →
        formatAndClip tr.output_format tr.max_length raw = format_output tr.output_format raw)
    ∧ (tr.max_length + 10 < (format_output tr.output_format raw).data.length →
        (formatAndClip tr.output_format tr.max_length raw).data.length = tr.max_length)
    ∧ ((∀ kv ∈ tr.cache, kv.2.data.length ≤ tr.max_length + 10) →
        ∀ kv ∈ (batch_translate pyHash oracle tr texts).results,
          kv.2.data.length ≤ tr.max_length + 10) := by
  have hne : texts ≠ [] := by
    intro h0
    rw [h0] at hmiss
    exact hmiss rfl
  have hm : ¬ (missesList pyHash tr texts).isEmpty = true := by
    intro h0
    apply hmiss
    cases hc : missesList pyHash tr texts with
    | nil => rfl
    | cons a as =>
      rw [hc] at h0
      cases h0
  have hres : (batch_translate pyHash oracle tr texts).results
      = translations.foldl (transStep tr.output_format tr.max_length)
          (hitsDict pyHash tr texts) := by
    rw [batch_translate_eq pyHash oracle tr texts hne, if_neg hm, horacle]
  refine ⟨?_, formatAndClip_length _ _ _, fun h => formatAndClip_keep _ _ _ h,
    fun h => (formatAndClip_truncate _ _ _ h).2, ?_⟩
  · rw [hres]
    exact trans_lookup_mem _ _ _ _ _ _ hnd hmem
  · intro hcache kv hkv
    rw [hres] at hkv
    rcases trans_mem _ _ _ _ _ hkv with h1 | ⟨kv0, _, rfl⟩
    · rcases hits_mem _ _ _ _ _ h1 with h2 | h2
      · exact absurd h2 (List.not_mem_nil kv)
      · have hget := truthy_cached_some pyHash tr kv.1 kv.2 h2
        exact hcache (make_key pyHash tr.context tr.output_format kv.1, kv.2)
          (mem_of_dlookup tr.cache (make_key pyHash tr.context tr.output_format kv.1) kv.2 hget)
    · exact formatAndClip_length _ _ _

theorem claim_C7_witness :
    dlookup (batch_translate (fun _ => 0)
        (fun _ => OracleReply.success [("a", "Power Board Assembly Unit Extra Long Name")])
        ⟨"kebab-case", 30, none, []⟩ ["a"]).results "a"
      = some "power-board-assembly-unit-extr"
    ∧ ("power-board-assembly-unit-extr" : String).data.length ≤ 40 := by
  have h := claim_C7 (fun _ => 0)
    (fun _ => OracleReply.success [("a", "Power Board Assembly Unit Extra Long Name")])
    ⟨"kebab-case", 30, none, []⟩ ["a"] [("a", "Power Board Assembly Unit Extra Long Name")]
    "a" "Power Board Assembly Unit Extra Long Name"
    (fun s => rfl) (by decide) (by decide) (by decide)
  exact ⟨h.1.trans (by decide), by decide⟩

/-- C10: every key of the parsed oracle object reaches the returned mapping —
even a key the caller never requested — while the cache is persisted only at
the keys of to-translate phrases: any cache key other than a missed phrase
key keeps its previous value. -/
theorem claim_C10 (pyHash : String → Int) (oracle : String → OracleReply) (tr : Translator)
    (texts : List String) (translations : Dict) (k raw : String)
    (horacle : ∀ s, oracle s = OracleReply.success translations)
    (hnd : (dkeys translations).Nodup)
    (hmem : (k, raw) ∈ translations)
    (_hnotreq : k ∉ texts)
    (hmiss : missesList pyHash tr texts ≠ []) :
    dlookup (batch_translate pyHash oracle tr texts).results k
      = some (formatAndClip tr.output_format tr.max_length raw)
    ∧ ∀ key, (∀ t ∈ missesList pyHash tr texts,
          key ≠ make_key pyHash tr.context tr.output_format t) →
        dlookup (batch_translate pyHash oracle tr texts).cache key = dlookup tr.cache key := by
  have hne : texts ≠ [] := by
    intro h0
    rw [h0] at hmiss
    exact hmiss rfl
  have hm : ¬ (missesList pyHash tr texts).isEmpty = true := by
    intro h0
    apply hmiss
    cases hc : missesList pyHash tr texts with
    | nil => rfl
    | cons a as =>
      rw [hc] at h0
      cases h0
  have hfull := batch_translate_eq pyHash oracle tr texts hne
  rw [if_neg hm, horacle] at hfull
  constructor
  · rw [hfull]
    exact trans_lookup_mem _ _ _ _ _ _ hnd hmem
  · intro key hkey
    rw [hfull]
    apply cache_set_batch_lookup_other
    intro kv hkv
    have hk1 : kv.1 ∈ missesList pyHash tr texts := by
      have h2 := (List.mem_filter.mp hkv).2
      simpa using h2
    exact hkey kv.1 hk1

theorem claim_C10_witness :
    dlookup (batch_translate (fun _ => 0) (fun _ => OracleReply.success [("extra", "Ex Tra")])
        ⟨"kebab-case", 30, none, []⟩ ["a"]).results "extra" = some "ex-tra"
    ∧ dlookup (batch_translate (fun _ => 0) (fun _ => OracleReply.success [("extra", "Ex Tra")])
        ⟨"kebab-case", 30, none, []⟩ ["a"]).cache "other" = none := by
  have h := claim_C10 (fun _ => 0) (fun _ => OracleReply.success [("extra", "Ex Tra")])
    ⟨"kebab-case", 30, none, []⟩ ["a"] [("extra", "Ex Tra")] "extra" "Ex Tra"
    (fun s => rfl) (by decide) (by decide) (by decide) (by decide)
  exact ⟨h.1.trans (by decide), (h.2 "other" (by decide)).trans (by decide)⟩

theorem claim_C1_witness :
    dlookup (batch_translate (fun _ => 0) (fun _ => OracleReply.exitFailure)
      ⟨"snake_case", 30, none, []⟩ ["Y"]).results "Y" = some FAILED
    ∧ (dkeys (batch_translate (fun _ => 0) (fun _ => OracleReply.exitFailure)
      ⟨"snake_case", 30, none, []⟩ ["Y"]).results).Nodup := by
  have h := claim_C1 (fun _ => 0) (fun _ => OracleReply.exitFailure)
    ⟨"snake_case", 30, none, []⟩ ["Y"] OracleReply.exitFailure (fun s => rfl)
  exact ⟨(h.2.1 rfl).2 "Y" (List.mem_singleton.mpr rfl) (by decide), h.1⟩
